import Mathlib

/-!
# EQlib core: shallow embedding and verification

A shallow embedding of the EQlib equation-assembly and Newton-solver core
(`src/include/EQlib/System.h`, `src/include/EQlib/Assemble.h`,
`src/include/EQlib/Element.h`) together with proofs of the specified
properties.

Modelling conventions:
* `double` is embedded as `ℚ` (exact arithmetic; none of the verified
  properties are floating-point specific, and the assembly-equivalence
  property is explicitly stated over exact arithmetic).
* A `Dof` is identified by a natural-number identity key (the C++ `Dof`
  hashes by value identity).  Its mutable shared state (the `fixed` flag
  snapshot, `target`, `delta`) is carried as functions from identity keys,
  mirroring the shared-ownership store.
* Eigen's column-compressed sparse matrix is embedded as its structural
  pattern (per-column sorted row lists) plus a total value function
  `ℕ → ℕ → ℚ`; the stored value array is recovered by reading the value
  function at the structural entries in storage order.
* Norm comparisons `‖v‖₂ < t` are embedded by the equivalent exact
  rational test `0 < t ∧ (Σ vᵢ²) < t²` (squares of both sides; valid since
  `‖v‖₂ ≥ 0` and squaring is strictly monotone on nonnegatives).
-/

namespace EQlib

/-- Entry of a per-element index table: a `(local, global)` pair
(`System::Index` in `System.h`; the C++ field `local` is spelled `loc`
here because `local` is reserved in Lean). -/
structure Index where
  loc : Nat
  global : Nat
deriving DecidableEq

/-- An element: an ordered list of DoF identity keys plus a local compute.
`compute iteration delta` returns the pair `(local_lhs, local_rhs)`;
it may read the current DoF state through `delta` (the C++ element reads
shared `Dof` objects), and sees the driver-injected `iteration` option. -/
structure Element where
  dofs : List Nat
  compute : Nat → (Nat → ℚ) → ((Nat → Nat → ℚ) × (Nat → ℚ))

/-- The element used when an index is out of range (never reached in the
verified statements). -/
def defaultElement : Element :=
  { dofs := [], compute := fun _ _ => (fun _ _ => 0, fun _ => 0) }

instance : Inhabited Element := ⟨defaultElement⟩

/-- Available linear solvers (`SolverLDLT`, `SolverLSMR`). -/
inductive SolverKind where
  | ldlt
  | lsmr
deriving DecidableEq

/-- Solver selection in the `System` constructor (`System.h` lines
204–210): `"ldlt"` and `"lsmr"` select a solver; any other name takes the
`std::cout << "error"` branch (marked `FIXME: throw exception`) and leaves
`m_solver` null, embedded as `none`. -/
def selectSolver (linear_solver : String) : Option SolverKind :=
  if linear_solver = "ldlt" then some SolverKind.ldlt
  else if linear_solver = "lsmr" then some SolverKind.lsmr
  else none

/-- One step of the unique-DoF scan (`System.h` lines 85–101): state is
`(seen, free_dofs, fixed_dofs)`; a DoF already seen is skipped, otherwise
it is appended to the fixed or free list according to its `fixed` flag. -/
def addDof (fixed : Nat → Bool) (st : List Nat × List Nat × List Nat)
    (d : Nat) : List Nat × List Nat × List Nat :=
  let (seen, fr, fx) := st
  if d ∈ seen then st
  else if fixed d then (d :: seen, fr, fx ++ [d])
  else (d :: seen, fr ++ [d], fx)

/-- The unique-DoF scan over all elements' cached DoF lists, in element
input order. -/
def collectDofs (fixed : Nat → Bool) (element_dofs : List (List Nat)) :
    List Nat × List Nat × List Nat :=
  element_dofs.foldl (fun st ds => ds.foldl (addDof fixed) st) ([], [], [])

/-- Sorted insertion of an `Index` by its `global` field. -/
def insertIndex (x : Index) : List Index → List Index
  | [] => [x]
  | y :: ys => if x.global ≤ y.global then x :: y :: ys
               else y :: insertIndex x ys

/-- Sorting of a per-element index table by `global`
(the `std::sort` call in `System.h` line 138; insertion sort realises one
valid outcome of the unstable sort, and the properties proved depend only
on sortedness). -/
def sortIndices : List Index → List Index
  | [] => []
  | x :: xs => insertIndex x (sortIndices xs)

/-- Sorted-set insertion into a column's row set (`std::set<int>::insert`). -/
def setInsert (v : Nat) : List Nat → List Nat
  | [] => [v]
  | x :: xs =>
      if v < x then v :: x :: xs
      else if v = x then x :: xs
      else x :: setInsert v xs

/-- Insert `row` into `pattern[col]` (out-of-range `col` leaves the
pattern unchanged; in the constructor `col < F` always holds). -/
def patternInsert (p : List (List Nat)) (col row : Nat) : List (List Nat) :=
  p.set col (setInsert row (p.getD col []))

/-- Inner column loop of the pattern analysis (`System.h` lines 157–165):
for the fixed row entry `ri`, walk the table tail `cols` (which starts at
the row position itself) and record `ri.global` in each free column. -/
def patternCols (F : Nat) (ri : Index) (cols : List Index)
    (p : List (List Nat)) : List (List Nat) :=
  cols.foldl
    (fun p ci => if ci.global < F then patternInsert p ci.global ri.global
                 else p) p

/-- Row loop of the pattern analysis (`System.h` lines 150–166): rows with
`global ≥ F` are skipped (`continue`); otherwise all pairs with column
positions at or after the row position are recorded. -/
def patternElem (F : Nat) : List Index → List (List Nat) → List (List Nat)
  | [], p => p
  | ri :: rest, p =>
      if ri.global < F then patternElem F rest (patternCols F ri (ri :: rest) p)
      else patternElem F rest p

/-- Full pattern analysis over all index tables (`System.h` lines 145–167),
starting from `F` empty column sets. -/
def analyzePattern (F : Nat) (tables : List (List Index)) : List (List Nat) :=
  tables.foldl (fun p T => patternElem F T p) (List.replicate F [])

/-- The constructed `System`: global DoF vector (identity keys, free block
first), free count, elements, per-element sorted index tables, structural
pattern of the free-block LHS, and the selected solver. -/
structure System where
  dofs : List Nat
  nbFreeDofs : Nat
  elements : List Element
  indexTable : List (List Index)
  pattern : List (List Nat)
  solverKind : Option SolverKind

/-- The `System` constructor (`System.h` lines 58–213): cache element DoF
lists, scan for unique DoFs into free/fixed lists, concatenate them,
build the identity→index map, build sorted index tables, analyse the
pattern, and select the solver. -/
def buildSystem (elements : List Element) (fixed : Nat → Bool)
    (linear_solver : String) : System :=
  let element_dofs := elements.map (fun e => e.dofs)
  let scan := collectDofs fixed element_dofs
  let free_dofs := scan.2.1
  let fixed_dofs := scan.2.2
  let dofs := free_dofs ++ fixed_dofs
  let F := free_dofs.length
  let dofIndex : Nat → Nat := fun d => dofs.indexOf d
  let indexTable := element_dofs.map (fun ds =>
    sortIndices ((List.range ds.length).map
      (fun l => { loc := l, global := dofIndex (ds.getD l 0) })))
  { dofs := dofs
    nbFreeDofs := F
    elements := elements
    indexTable := indexTable
    pattern := analyzePattern F indexTable
    solverKind := selectSolver linear_solver }

/-! ## Assembly -/

/-- Accumulator for assembly: the LHS value function and the RHS value
function.  Pointwise addition (the `Prod`/`Pi` instances) is the `join`
of `Assemble.h`. -/
abbrev Acc := ((Nat → Nat → ℚ) × (Nat → ℚ))

/-- `lhs.coeffRef(r, c) += v` on the value function. -/
def addEntry (f : Nat → Nat → ℚ) (r c : Nat) (v : ℚ) : Nat → Nat → ℚ :=
  fun r' c' => if r' = r ∧ c' = c then f r' c' + v else f r' c'

/-- `rhs(i) += v` on the RHS value function. -/
def addRhs (g : Nat → ℚ) (i : Nat) (v : ℚ) : Nat → ℚ :=
  fun j => if j = i then g j + v else g j

/-- Inner column loop of the scatter (`System.h` lines 304–313): for row
entry `ri`, walk the table tail `cols` (starting at the row position) and
add `local_lhs(ri.loc, ci.loc)` into the LHS at `(ri.global, ci.global)`
for each free column (`continue` on fixed columns). -/
def scatterCols (F : Nat) (llhs : Nat → Nat → ℚ) (ri : Index)
    (cols : List Index) (f : Nat → Nat → ℚ) : Nat → Nat → ℚ :=
  cols.foldl
    (fun f ci => if ci.global < F then
                   addEntry f ri.global ci.global (llhs ri.loc ci.loc)
                 else f) f

/-- Row loop of the scatter (`System.h` lines 295–314): a row with
`global ≥ F` is skipped entirely (`continue`); otherwise
`local_rhs(ri.loc)` is added into `rhs(ri.global)` and the column loop
runs from the row position. -/
def scatterElem (F : Nat) (llhs : Nat → Nat → ℚ) (lrhs : Nat → ℚ) :
    List Index → Acc → Acc
  | [], a => a
  | ri :: rest, a =>
      if ri.global < F then
        scatterElem F llhs lrhs rest
          (scatterCols F llhs ri (ri :: rest) a.1,
           addRhs a.2 ri.global (lrhs ri.loc))
      else scatterElem F llhs lrhs rest a

/-- Compute and scatter one element by its position `i`
(`m_elements[i]`, `m_index_table[i]`). -/
def scatterElemAt (sys : System) (iter : Nat) (delta : Nat → ℚ) (a : Acc)
    (i : Nat) : Acc :=
  let e := sys.elements.getD i defaultElement
  let lc := e.compute iter delta
  scatterElem sys.nbFreeDofs lc.1 lc.2 (sys.indexTable.getD i []) a

/-- Serial assembly from a zeroed accumulator: the element loop of
`System::compute` (`System.h` lines 286–315). -/
def computeVals (sys : System) (iter : Nat) (delta : Nat → ℚ) : Acc :=
  (List.range sys.elements.length).foldl (scatterElemAt sys iter delta) (0, 0)

/-- One full call of `System::compute` (`System.h` lines 268–316) as a
state transformer on the accumulator: first all structural LHS value slots
and the RHS are zeroed in place (dropping `prev`), then every element is
computed and scattered. -/
def computeStep (sys : System) (iter : Nat) (delta : Nat → ℚ)
    (_prev : Acc) : Acc :=
  computeVals sys iter delta

/-- Contribution of a single element from a zero accumulator. -/
def elemVals (sys : System) (iter : Nat) (delta : Nat → ℚ) (i : Nat) : Acc :=
  scatterElemAt sys iter delta (0, 0) i

/-- A reduction tree for parallel assembly (`Assemble.h` / TBB
`parallel_reduce`): a leaf holds the element indices processed serially by
one worker into a fresh zeroed accumulator that shares the LHS structure;
a node is the pairwise `join` (pointwise addition of the LHS value arrays
and the RHS arrays). -/
inductive RTree where
  | leaf (idxs : List Nat)
  | node (l r : RTree)

/-- The element indices of a reduction tree, leaves left to right. -/
def RTree.flatten : RTree → List Nat
  | leaf idxs => idxs
  | node l r => l.flatten ++ r.flatten

/-- Evaluation of parallel assembly along a reduction tree. -/
def treeVals (sys : System) (iter : Nat) (delta : Nat → ℚ) : RTree → Acc
  | RTree.leaf idxs => idxs.foldl (scatterElemAt sys iter delta) (0, 0)
  | RTree.node l r => treeVals sys iter delta l + treeVals sys iter delta r

/-- The stored LHS value array, column by column, rows ascending inside a
column — exactly Eigen's column-compressed storage order over the
structural pattern. -/
def lhsArr (sys : System) (f : Nat → Nat → ℚ) : List (List ℚ) :=
  (List.range sys.pattern.length).map
    (fun c => (sys.pattern.getD c []).map (fun r => f r c))

/-- The dense RHS vector of length `F`. -/
def rhsArr (F : Nat) (g : Nat → ℚ) : List ℚ :=
  (List.range F).map g

/-! ## Newton driver -/

/-- The squared-norm embedding of `v.norm() < t` (see the header note):
`‖v‖₂ < t ↔ 0 < t ∧ Σ vᵢ² < t²`. -/
def normLtB (v : List ℚ) (t : ℚ) : Bool :=
  decide (0 < t ∧ (v.map (fun a => a * a)).sum < t * t)

/-- A linear solver as used by the driver: `set_matrix` + `solve` fused
into one function from the matrix view (structural pattern and value
function) and the right-hand side to the correction. -/
def SolverFun : Type :=
  (List (List Nat) × (Nat → Nat → ℚ)) → List ℚ → List ℚ

/-- `for i < F: dof[i].set_delta(dof[i].delta() − x(i))`
(`System.h` lines 443–445), acting on the shared delta store keyed by DoF
identity. -/
def updateDeltas (dofs : List Nat) (F : Nat) (delta : Nat → ℚ)
    (x : List ℚ) : Nat → ℚ :=
  (List.range F).foldl
    (fun d i => fun id => if id = dofs.getD i 0 then d id - x.getD i 0
                          else d id) delta

/-- Observable outcome of `System::solve`: stopping reason, the iteration
counter at exit, the number of full iterations executed (assemble,
residual check, solve, update), the exit residual and correction vectors,
the final delta store, the delta store as it was before the update step of
the exiting iteration (`preDelta`), and counters of assembly passes and
linear-solver invocations. -/
structure SolveOut where
  reason : Int
  iterations : Nat
  fullIters : Nat
  residual : List ℚ
  x : List ℚ
  delta : Nat → ℚ
  preDelta : Nat → ℚ
  assembleCalls : Nat
  solverCalls : Nat

/-- The residual of iteration `iter`: assemble
(`compute(options)`, `System.h` line 418), then
`m_residual = rhs() - m_target` (line 422). -/
def residualAt (sys : System) (target : List ℚ) (iter : Nat)
    (delta : Nat → ℚ) : List ℚ :=
  List.zipWith (fun r t => r - t)
    (rhsArr sys.nbFreeDofs (computeVals sys iter delta).2) target

/-- The correction of iteration `iter`:
`m_solver->set_matrix(m_lhs); m_solver->solve(m_residual, m_x)`
(`System.h` lines 438–439). -/
def xAt (sys : System) (solver : SolverFun) (target : List ℚ) (iter : Nat)
    (delta : Nat → ℚ) : List ℚ :=
  solver (sys.pattern, (computeVals sys iter delta).1)
    (residualAt sys target iter delta)

/-- The Newton iteration (`System.h` lines 406–455).  `fuel` counts the
iterations still allowed: the C++ guard `iteration ≥ maxiter` is realised
by starting from `fuel = maxiter.toNat` and decrementing, so `fuel = 0`
exactly when `iteration ≥ maxiter`.  Each pass: assemble, form
`residual = rhs − target`, exit with reason `0` if `‖residual‖ < rtol`;
otherwise solve for `x`, subtract `x` from the free DoFs' deltas, and exit
with reason `1` if `‖x‖ < xtol`. -/
def solveLoop (sys : System) (solver : SolverFun) (rtol xtol : ℚ)
    (target : List ℚ) (delta : Nat → ℚ) (x residual : List ℚ)
    (iter aCalls sCalls : Nat) : Nat → SolveOut
  | 0 =>
      { reason := 2, iterations := iter, fullIters := iter,
        residual := residual, x := x, delta := delta, preDelta := delta,
        assembleCalls := aCalls, solverCalls := sCalls }
  | fuel + 1 =>
      if normLtB (residualAt sys target iter delta) rtol then
        { reason := 0, iterations := iter, fullIters := iter,
          residual := residualAt sys target iter delta, x := x,
          delta := delta, preDelta := delta,
          assembleCalls := aCalls + 1, solverCalls := sCalls }
      else if normLtB (xAt sys solver target iter delta) xtol then
        { reason := 1, iterations := iter, fullIters := iter + 1,
          residual := residualAt sys target iter delta,
          x := xAt sys solver target iter delta,
          delta := updateDeltas sys.dofs sys.nbFreeDofs delta
            (xAt sys solver target iter delta),
          preDelta := delta,
          assembleCalls := aCalls + 1, solverCalls := sCalls + 1 }
      else
        solveLoop sys solver rtol xtol target
          (updateDeltas sys.dofs sys.nbFreeDofs delta
            (xAt sys solver target iter delta))
          (xAt sys solver target iter delta)
          (residualAt sys target iter delta)
          (iter + 1) (aCalls + 1) (sCalls + 1) fuel

/-- The three exit guarantees of one `solveLoop` run whose iteration
budget is `bound`: reason `0` implies the exit residual is below `rtol`,
reason `1` implies the exit correction is below `xtol` and has already
been applied to the deltas, reason `2` implies exactly `bound` full
iterations ran. -/
def LoopClaims (sys : System) (rtol xtol : ℚ) (bound : Nat)
    (out : SolveOut) : Prop :=
  (out.reason = 0 → normLtB out.residual rtol = true) ∧
  (out.reason = 1 → normLtB out.x xtol = true ∧
    out.delta = updateDeltas sys.dofs sys.nbFreeDofs out.preDelta out.x) ∧
  (out.reason = 2 → out.fullIters = bound)

/-- `System::solve` (`System.h` lines 387–460): read the options, build
`target` from the free DoFs' targets (scaled by `lambda` when it is not
`1`), and run the iteration.  The DoF state (`tgt`, initial `delta0`) is
passed explicitly, mirroring the shared DoF store. -/
def solve (sys : System) (solver : SolverFun) (lambda : ℚ) (maxiter : Int)
    (rtol xtol : ℚ) (tgt : Nat → ℚ) (delta0 : Nat → ℚ) : SolveOut :=
  let target := (List.range sys.nbFreeDofs).map
    (fun i => tgt (sys.dofs.getD i 0))
  let target := if lambda = 1 then target else target.map (fun t => lambda * t)
  solveLoop sys solver rtol xtol target delta0
    (List.replicate sys.nbFreeDofs 0) (List.replicate sys.nbFreeDofs 0)
    0 0 0 maxiter.toNat

/-- Modelled from the spec: `SolverLDLT`
(`src/include/EQlib/Solver/SolverLDLT.h` is not part of the sources; §4.4
of the design gives its contract `solve(b, x)`: solve `M x = b` for the
symmetric matrix stored as the upper triangle).  Realised exactly for the
one-dimensional systems arising in the concrete scenarios: `x₀ = b₀/M₀₀`. -/
def solverLDLT1 : SolverFun :=
  fun M b => [b.getD 0 0 / M.2 0 0]

/-! ## Specification predicates -/

instance : Inhabited Index := ⟨⟨0, 0⟩⟩

/-- `(row, col)` is a structural nonzero of the free-block LHS: the
constructor inserts exactly the pattern entries into `m_lhs`
(`System.h` lines 185–193). -/
def structuralNZ (sys : System) (row col : Nat) : Prop :=
  col < sys.pattern.length ∧ row ∈ sys.pattern.getD col []

instance (sys : System) (row col : Nat) : Decidable (structuralNZ sys row col) :=
  inferInstanceAs (Decidable (_ ∧ _))

/-- The element-local justification of a structural entry: the (sorted)
index table `T` contains positions `r ≤ c` whose globals are `row` and
`col`, both free. -/
def Justifies (F : Nat) (T : List Index) (row col : Nat) : Prop :=
  ∃ r c, r ≤ c ∧ c < T.length ∧ (T.getD r default).global = row ∧
    (T.getD c default).global = col ∧ row < F ∧ col < F

/-- All position pairs `(T[r], T[c])` with `r ≤ c` of a table, in the
nesting order of the two pattern-analysis loops. -/
def tailPairs : List Index → List (Index × Index)
  | [] => []
  | x :: xs => (x :: xs).map (fun y => (x, y)) ++ tailPairs xs

/-! ## Concrete instances used as witnesses -/

/-- The element of scenario 1 as claimed: `local_lhs = [[2]]`,
`local_rhs = [1]`, independent of the options and of the DoF state. -/
def constElem : Element :=
  { dofs := [0], compute := fun _ _ => (fun _ _ => 2, fun _ => 1) }

/-- System of one `constElem` with one free DoF. -/
def sys1 : System := buildSystem [constElem] (fun _ => false) "ldlt"

/-- `solve` on `sys1` with the modelled LDLT solver and the default
options (`lambda = 1`, `maxiter = 100`, `rtol = xtol = 1e-7`); the DoF
target is `0` and the initial delta is `0`. -/
def out1 : SolveOut :=
  solve sys1 solverLDLT1 1 100 (1/10000000) (1/10000000)
    (fun _ => 0) (fun _ => 0)

/-- The actually linear element: `local_lhs = [[2]]` and
`local_rhs = [1 + 2·delta]`, the residual of a linear equation in the
DoF's current delta. -/
def linElem : Element :=
  { dofs := [0], compute := fun _ d => (fun _ _ => 2, fun _ => 1 + 2 * d 0) }

/-- System of one `linElem` with one free DoF. -/
def sys2 : System := buildSystem [linElem] (fun _ => false) "ldlt"

/-- `solve` on `sys2`, same options as `out1`. -/
def out2 : SolveOut :=
  solve sys2 solverLDLT1 1 100 (1/10000000) (1/10000000)
    (fun _ => 0) (fun _ => 0)

/-- The empty system (zero elements). -/
def sys0 : System := buildSystem [] (fun _ => false) "ldlt"

/-- `solve` on the empty system with `maxiter = -1`. -/
def outNeg : SolveOut :=
  solve sys0 solverLDLT1 1 (-1) (1/10000000) (1/10000000)
    (fun _ => 0) (fun _ => 0)

/-- `solve` on `sys1` with a solver that returns a zero correction, so
the run exits with `StepBelowTol` in iteration `0`; the DoF target is
`5`. -/
def outStep : SolveOut :=
  solve sys1 (fun _ _ => [0]) 1 100 (1/10000000) (1/10000000)
    (fun _ => 5) (fun _ => 0)

/-- Scenario-2 element pair: DoF `5` only in `eA`, DoF `7` in both. -/
def eA : Element :=
  { dofs := [5, 7], compute := fun _ _ => (fun _ _ => 1, fun _ => 1) }

/-- See `eA`. -/
def eB : Element :=
  { dofs := [7], compute := fun _ _ => (fun _ _ => 1, fun _ => 1) }

/-- Two elements sharing a DoF, both DoFs free. -/
def sysAB : System := buildSystem [eA, eB] (fun _ => false) "ldlt"

/-- A reduction tree processing element `1` and element `0` in separate
workers, joined in reversed order. -/
def tAB : RTree := RTree.node (RTree.leaf [1]) (RTree.leaf [0])

/-- Scenario-3 element: three DoFs with distinct local contributions. -/
def e3 : Element :=
  { dofs := [1, 2, 3],
    compute := fun _ _ => (fun r c => (r + 1) * (c + 1), fun l => l + 10) }

/-- The fixed-flag store that fixes DoF `2` (the middle DoF of `e3`). -/
def fixMid : Nat → Bool := fun d => d = 2

/-- Mixed free/fixed system: three DoFs, the middle one fixed. -/
def sysMix : System := buildSystem [e3] fixMid "ldlt"

/-- Invariant of the unique-DoF scan: every collected free DoF has its
`fixed` flag unset, every collected fixed DoF has it set, the collected
DoFs are pairwise distinct, and every collected DoF has been seen. -/
def ScanInv (fixed : Nat → Bool) (st : List Nat × List Nat × List Nat) :
    Prop :=
  (∀ d ∈ st.2.1, fixed d = false) ∧ (∀ d ∈ st.2.2, fixed d = true) ∧
    (st.2.1 ++ st.2.2).Nodup ∧ ∀ d ∈ st.2.1 ++ st.2.2, d ∈ st.1

/-! ## Lemmas: DoF scan and partition -/

theorem scanInv_addDof (fixed : Nat → Bool)
    (st : List Nat × List Nat × List Nat) (d : Nat) (h : ScanInv fixed st) :
    ScanInv fixed (addDof fixed st d) := by
  obtain ⟨seen, fr, fx⟩ := st
  obtain ⟨h1, h2, h3, h4⟩ := h
  simp only [ScanInv, addDof]
  by_cases hd : d ∈ seen
  · simp only [if_pos hd]
    exact ⟨h1, h2, h3, h4⟩
  · have hd' : d ∉ fr ++ fx := fun hmem => hd (h4 d hmem)
    by_cases hf : fixed d
    · simp only [if_neg hd, if_pos hf]
      refine ⟨h1, ?_, ?_, ?_⟩
      · intro a ha
        rcases List.mem_append.mp ha with ha | ha
        · exact h2 a ha
        · simp only [List.mem_singleton] at ha; subst ha; exact hf
      · have : (fr ++ fx) ++ [d] = fr ++ (fx ++ [d]) := List.append_assoc _ _ _
        rw [← this]
        exact (List.nodup_append.mpr
          ⟨h3, List.nodup_singleton d,
           by intro a ha hb; simp only [List.mem_singleton] at hb;
              subst hb; exact hd' ha⟩)
      · intro a ha
        simp only [List.mem_append, List.mem_singleton] at ha
        rcases ha with ha | ha | ha
        · exact List.mem_cons_of_mem d (h4 a (List.mem_append_left _ ha))
        · exact List.mem_cons_of_mem d (h4 a (List.mem_append_right _ ha))
        · subst ha; exact List.mem_cons_self a seen
    · simp only [if_neg hd, if_neg hf]
      refine ⟨?_, h2, ?_, ?_⟩
      · intro a ha
        rcases List.mem_append.mp ha with ha | ha
        · exact h1 a ha
        · simp only [List.mem_singleton] at ha; subst ha
          exact Bool.eq_false_iff.mpr hf
      · rw [List.append_assoc]
        refine List.nodup_append.mpr ⟨(List.nodup_append.mp h3).1, ?_, ?_⟩
        · refine List.nodup_append.mpr
            ⟨List.nodup_singleton d, (List.nodup_append.mp h3).2.1, ?_⟩
          intro a ha hb
          simp only [List.mem_singleton] at ha; subst ha
          exact hd' (List.mem_append_right _ hb)
        · intro a ha hb
          simp only [List.mem_append, List.mem_singleton] at hb
          rcases hb with hb | hb
          · subst hb; exact hd' (List.mem_append_left _ ha)
          · exact (List.nodup_append.mp h3).2.2 ha hb
      · intro a ha
        simp only [List.mem_append, List.mem_singleton] at ha
        rcases ha with (ha | ha) | ha
        · exact List.mem_cons_of_mem d (h4 a (List.mem_append_left _ ha))
        · subst ha; exact List.mem_cons_self a seen
        · exact List.mem_cons_of_mem d (h4 a (List.mem_append_right _ ha))

theorem scanInv_foldl (fixed : Nat → Bool) (l : List Nat)
    (st : List Nat × List Nat × List Nat) (h : ScanInv fixed st) :
    ScanInv fixed (l.foldl (addDof fixed) st) := by
  induction l generalizing st with
  | nil => exact h
  | cons a t ih => exact ih _ (scanInv_addDof fixed st a h)

theorem scanInv_collectDofs (fixed : Nat → Bool)
    (eds : List (List Nat)) : ScanInv fixed (collectDofs fixed eds) := by
  unfold collectDofs
  induction eds using List.reverseRecOn with
  | nil => exact ⟨by simp, by simp, by simp, by simp⟩
  | append_singleton t a ih =>
      rw [List.foldl_append]
      exact scanInv_foldl fixed a _ ih

theorem buildSystem_dofs_nodup (elements : List Element)
    (fixed : Nat → Bool) (ls : String) :
    (buildSystem elements fixed ls).dofs.Nodup := by
  have h := (scanInv_collectDofs fixed (elements.map (fun e => e.dofs))).2.2.1
  exact h

theorem buildSystem_free_le_length (elements : List Element)
    (fixed : Nat → Bool) (ls : String) :
    (buildSystem elements fixed ls).nbFreeDofs ≤
      (buildSystem elements fixed ls).dofs.length := by
  show (collectDofs fixed _).2.1.length ≤
    ((collectDofs fixed _).2.1 ++ (collectDofs fixed _).2.2).length
  rw [List.length_append]
  exact Nat.le_add_right _ _

theorem getD_lt_eq {α : Type} {l : List α} {n : Nat} (d : α)
    (h : n < l.length) : l.getD n d = l[n] := by
  simp [List.getD_eq_getElem?_getD, List.getElem?_eq_getElem h]

/-- C8: after construction, every global index `< F` carries a DoF whose
`fixed` flag (as snapshotted at build time) is unset, and every index in
`[F, N)` carries one whose flag is set.  In this embedding the DoF vector
and the snapshot are immutable after construction, so the partition is
preserved by all subsequent operations. -/
theorem C8_free_fixed_partition (elements : List Element)
    (fixed : Nat → Bool) (ls : String) (i : Nat) :
    (i < (buildSystem elements fixed ls).nbFreeDofs →
      fixed ((buildSystem elements fixed ls).dofs.getD i 0) = false) ∧
    ((buildSystem elements fixed ls).nbFreeDofs ≤ i →
      i < (buildSystem elements fixed ls).dofs.length →
      fixed ((buildSystem elements fixed ls).dofs.getD i 0) = true) := by
  obtain ⟨h1, h2, -, -⟩ :=
    scanInv_collectDofs fixed (elements.map (fun e => e.dofs))
  constructor
  · intro hi
    have hi' : i < (collectDofs fixed
        (elements.map (fun e => e.dofs))).2.1.length := hi
    have hval : (buildSystem elements fixed ls).dofs.getD i 0
        = (collectDofs fixed (elements.map (fun e => e.dofs))).2.1[i] := by
      show ((collectDofs fixed (elements.map (fun e => e.dofs))).2.1 ++
        (collectDofs fixed (elements.map (fun e => e.dofs))).2.2).getD i 0 = _
      rw [getD_lt_eq 0 (by rw [List.length_append]; omega)]
      exact List.getElem_append_left hi'
    rw [hval]
    exact h1 _ (List.getElem_mem hi')
  · intro hF hN
    have hF' : (collectDofs fixed
        (elements.map (fun e => e.dofs))).2.1.length ≤ i := hF
    have hN' : i < (collectDofs fixed
          (elements.map (fun e => e.dofs))).2.1.length +
        (collectDofs fixed (elements.map (fun e => e.dofs))).2.2.length := by
      have : (buildSystem elements fixed ls).dofs.length =
          (collectDofs fixed (elements.map (fun e => e.dofs))).2.1.length +
          (collectDofs fixed (elements.map (fun e => e.dofs))).2.2.length := by
        show ((collectDofs fixed (elements.map (fun e => e.dofs))).2.1 ++
          (collectDofs fixed (elements.map (fun e => e.dofs))).2.2).length = _
        exact List.length_append _ _
      omega
    have hsub : i - (collectDofs fixed
        (elements.map (fun e => e.dofs))).2.1.length <
        (collectDofs fixed (elements.map (fun e => e.dofs))).2.2.length := by
      omega
    have hval : (buildSystem elements fixed ls).dofs.getD i 0
        = (collectDofs fixed (elements.map (fun e => e.dofs))).2.2[
            i - (collectDofs fixed
              (elements.map (fun e => e.dofs))).2.1.length] := by
      show ((collectDofs fixed (elements.map (fun e => e.dofs))).2.1 ++
        (collectDofs fixed (elements.map (fun e => e.dofs))).2.2).getD i 0 = _
      rw [getD_lt_eq 0 (by rw [List.length_append]; omega)]
      exact List.getElem_append_right hF'
    rw [hval]
    exact h2 _ (List.getElem_mem hsub)

/-- Witness for C8: the mixed system of `e3` with DoF `2` fixed has free
index `0` unfixed and index `2` fixed. -/
theorem C8_witness :
    ((0 : Nat) < sysMix.nbFreeDofs ∧
      fixMid (sysMix.dofs.getD 0 0) = false) ∧
    (sysMix.nbFreeDofs ≤ 2 ∧ 2 < sysMix.dofs.length ∧
      fixMid (sysMix.dofs.getD 2 0) = true) :=
  ⟨⟨by decide, (C8_free_fixed_partition [e3] fixMid "ldlt" 0).1 (by decide)⟩,
   by decide, by decide,
   (C8_free_fixed_partition [e3] fixMid "ldlt" 2).2 (by decide) (by decide)⟩

/-! ## Lemmas: assembly is a sum of element contributions -/

theorem addEntry_add (f g : Nat → Nat → ℚ) (r c : Nat) (v : ℚ) :
    addEntry (f + g) r c v = f + addEntry g r c v := by
  funext r' c'
  simp only [addEntry, Pi.add_apply]
  by_cases h : r' = r ∧ c' = c
  · simp [h, add_assoc]
  · simp [h]

theorem addRhs_add (f g : Nat → ℚ) (i : Nat) (v : ℚ) :
    addRhs (f + g) i v = f + addRhs g i v := by
  funext j
  simp only [addRhs, Pi.add_apply]
  by_cases h : j = i
  · simp [h, add_assoc]
  · simp [h]

theorem scatterCols_add (F : Nat) (llhs : Nat → Nat → ℚ) (ri : Index)
    (cols : List Index) (f g : Nat → Nat → ℚ) :
    scatterCols F llhs ri cols (f + g) = f + scatterCols F llhs ri cols g := by
  induction cols generalizing g with
  | nil => rfl
  | cons ci t ih =>
      simp only [scatterCols, List.foldl_cons]
      by_cases h : ci.global < F
      · simp only [if_pos h, addEntry_add]
        exact ih (addEntry g ri.global ci.global (llhs ri.loc ci.loc))
      · simp only [if_neg h]
        exact ih g

theorem scatterElem_add (F : Nat) (llhs : Nat → Nat → ℚ) (lrhs : Nat → ℚ)
    (T : List Index) (a b : Acc) :
    scatterElem F llhs lrhs T (a + b) = a + scatterElem F llhs lrhs T b := by
  induction T generalizing b with
  | nil => rfl
  | cons ri rest ih =>
      simp only [scatterElem]
      by_cases h : ri.global < F
      · simp only [if_pos h]
        have h1 : (a + b).1 = a.1 + b.1 := rfl
        have h2 : (a + b).2 = a.2 + b.2 := rfl
        rw [h1, h2, scatterCols_add, addRhs_add]
        exact ih (scatterCols F llhs ri (ri :: rest) b.1,
          addRhs b.2 ri.global (lrhs ri.loc))
      · simp only [if_neg h]
        exact ih b

theorem scatterElemAt_add (sys : System) (iter : Nat) (delta : Nat → ℚ)
    (a b : Acc) (i : Nat) :
    scatterElemAt sys iter delta (a + b) i
      = a + scatterElemAt sys iter delta b i :=
  scatterElem_add _ _ _ _ a b

theorem scatterElemAt_eq_add (sys : System) (iter : Nat) (delta : Nat → ℚ)
    (a : Acc) (i : Nat) :
    scatterElemAt sys iter delta a i = a + elemVals sys iter delta i := by
  have h := scatterElemAt_add sys iter delta a 0 i
  rw [add_zero] at h
  exact h

theorem foldl_scatter_eq_sum (sys : System) (iter : Nat) (delta : Nat → ℚ)
    (l : List Nat) (a : Acc) :
    l.foldl (scatterElemAt sys iter delta) a
      = a + (l.map (elemVals sys iter delta)).sum := by
  induction l generalizing a with
  | nil => simp
  | cons i t ih =>
      rw [List.foldl_cons, ih, List.map_cons, List.sum_cons,
        scatterElemAt_eq_add, add_assoc]

theorem computeVals_eq_sum (sys : System) (iter : Nat) (delta : Nat → ℚ) :
    computeVals sys iter delta
      = ((List.range sys.elements.length).map
          (elemVals sys iter delta)).sum := by
  have h := foldl_scatter_eq_sum sys iter delta
    (List.range sys.elements.length) 0
  rw [zero_add] at h
  exact h

theorem treeVals_eq_sum (sys : System) (iter : Nat) (delta : Nat → ℚ)
    (t : RTree) :
    treeVals sys iter delta t
      = ((RTree.flatten t).map (elemVals sys iter delta)).sum := by
  induction t with
  | leaf idxs =>
      have h := foldl_scatter_eq_sum sys iter delta idxs 0
      rw [zero_add] at h
      exact h
  | node l r ihl ihr =>
      simp only [treeVals, RTree.flatten, ihl, ihr, List.map_append,
        List.sum_append]

/-- C5: any parallel reduction (workers over a partition of the element
range, accumulators joined by pointwise addition, in any order) produces
the same LHS value array and RHS vector as serial assembly, over exact
arithmetic. -/
theorem C5_parallel_eq_serial (sys : System) (iter : Nat)
    (delta : Nat → ℚ) (t : RTree)
    (h : (RTree.flatten t).Perm (List.range sys.elements.length)) :
    lhsArr sys (treeVals sys iter delta t).1 =
      lhsArr sys (computeVals sys iter delta).1 ∧
    rhsArr sys.nbFreeDofs (treeVals sys iter delta t).2 =
      rhsArr sys.nbFreeDofs (computeVals sys iter delta).2 := by
  have heq : treeVals sys iter delta t = computeVals sys iter delta := by
    rw [treeVals_eq_sum, computeVals_eq_sum]
    exact List.Perm.sum_eq (h.map _)
  rw [heq]
  exact ⟨rfl, rfl⟩

/-- Witness for C5: the two-element shared-DoF system assembled by two
workers joined in reversed order. -/
theorem C5_witness :
    (RTree.flatten tAB).Perm (List.range sysAB.elements.length) ∧
    lhsArr sysAB (treeVals sysAB 0 (fun _ => 0) tAB).1 =
      lhsArr sysAB (computeVals sysAB 0 (fun _ => 0)).1 :=
  ⟨by decide, (C5_parallel_eq_serial sysAB 0 (fun _ => 0) tAB (by decide)).1⟩

theorem computeStep_iterate (sys : System) (iter : Nat) (delta : Nat → ℚ)
    (prev : Acc) (n : Nat) (hn : 1 ≤ n) :
    (computeStep sys iter delta)^[n] prev = computeVals sys iter delta := by
  cases n with
  | zero => omega
  | succ k => rw [Function.iterate_succ_apply']; rfl

/-- C6: calling assembly any positive number of times on the same
unchanged element set yields identical LHS values and identical RHS
values after each call — each pass first zeroes all LHS value slots and
the RHS in place, so the result is independent of the previous state. -/
theorem C6_idempotent_rezero (sys : System) (iter : Nat) (delta : Nat → ℚ)
    (prev : Acc) (n m : Nat) (hn : 1 ≤ n) (hm : 1 ≤ m) :
    lhsArr sys ((computeStep sys iter delta)^[n] prev).1 =
      lhsArr sys ((computeStep sys iter delta)^[m] prev).1 ∧
    rhsArr sys.nbFreeDofs ((computeStep sys iter delta)^[n] prev).2 =
      rhsArr sys.nbFreeDofs ((computeStep sys iter delta)^[m] prev).2 := by
  rw [computeStep_iterate sys iter delta prev n hn,
    computeStep_iterate sys iter delta prev m hm]
  exact ⟨rfl, rfl⟩

/-- Witness for C6: the first and second assembly pass on the mixed
system agree, starting from a nonzero previous state. -/
theorem C6_witness :
    (1 : Nat) ≤ 1 ∧ (1 : Nat) ≤ 2 ∧
    lhsArr sysMix ((computeStep sysMix 0 (fun _ => 0))^[1]
        (fun _ _ => (7 : ℚ), fun _ => (7 : ℚ))).1 =
      lhsArr sysMix ((computeStep sysMix 0 (fun _ => 0))^[2]
        (fun _ _ => (7 : ℚ), fun _ => (7 : ℚ))).1 :=
  ⟨by decide, by decide,
   (C6_idempotent_rezero sysMix 0 (fun _ => 0)
     (fun _ _ => (7 : ℚ), fun _ => (7 : ℚ)) 1 2 (by decide) (by decide)).1⟩

/-! ## Lemmas: the Newton loop -/

theorem solveLoop_spec (sys : System) (solver : SolverFun) (rtol xtol : ℚ)
    (target : List ℚ) (fuel : Nat) :
    ∀ (iter aCalls sCalls : Nat) (delta : Nat → ℚ) (x residual : List ℚ),
      LoopClaims sys rtol xtol (iter + fuel)
        (solveLoop sys solver rtol xtol target delta x residual
          iter aCalls sCalls fuel) := by
  induction fuel with
  | zero =>
      intro iter aCalls sCalls delta x residual
      refine ⟨?_, ?_, ?_⟩
      · intro h; simp [solveLoop] at h
      · intro h; simp [solveLoop] at h
      · intro _; simp [solveLoop]
  | succ k ih =>
      intro iter aCalls sCalls delta x residual
      by_cases h1 : normLtB (residualAt sys target iter delta) rtol = true
      · refine ⟨?_, ?_, ?_⟩
        · intro _
          simp only [solveLoop, if_pos h1]
          exact h1
        · intro h
          simp [solveLoop, if_pos h1] at h
        · intro h
          simp [solveLoop, if_pos h1] at h
      · by_cases h2 : normLtB (xAt sys solver target iter delta) xtol = true
        · refine ⟨?_, ?_, ?_⟩
          · intro h
            simp [solveLoop, if_neg h1, if_pos h2] at h
          · intro _
            simp only [solveLoop, if_neg h1, if_pos h2]
            exact ⟨h2, trivial⟩
          · intro h
            simp [solveLoop, if_neg h1, if_pos h2] at h
        · have hrec := ih (iter + 1) (aCalls + 1) (sCalls + 1)
            (updateDeltas sys.dofs sys.nbFreeDofs delta
              (xAt sys solver target iter delta))
            (xAt sys solver target iter delta)
            (residualAt sys target iter delta)
          have hstep : solveLoop sys solver rtol xtol target delta x residual
              iter aCalls sCalls (k + 1)
            = solveLoop sys solver rtol xtol target
                (updateDeltas sys.dofs sys.nbFreeDofs delta
                  (xAt sys solver target iter delta))
                (xAt sys solver target iter delta)
                (residualAt sys target iter delta)
                (iter + 1) (aCalls + 1) (sCalls + 1) k := by
            simp only [solveLoop, if_neg h1, if_neg h2]
          rw [hstep]
          have hbound : iter + 1 + k = iter + (k + 1) := by omega
          rw [hbound] at hrec
          exact hrec

theorem foldl_update_not_mem (dofs : List Nat) (x : List ℚ) (l : List Nat)
    (d : Nat → ℚ) (a : Nat) (h : ∀ j ∈ l, dofs.getD j 0 ≠ a) :
    (l.foldl
      (fun d i => fun id => if id = dofs.getD i 0 then d id - x.getD i 0
                            else d id) d) a = d a := by
  induction l generalizing d with
  | nil => rfl
  | cons j t ih =>
      rw [List.foldl_cons,
        ih _ (fun k hk => h k (List.mem_cons_of_mem j hk))]
      exact if_neg (fun he => (h j (List.mem_cons_self j t)) he.symm)

theorem getD_inj {l : List Nat} (hnd : l.Nodup) {a b : Nat}
    (ha : a < l.length) (hb : b < l.length)
    (h : l.getD a 0 = l.getD b 0) : a = b := by
  rw [getD_lt_eq 0 ha, getD_lt_eq 0 hb] at h
  exact (List.Nodup.getElem_inj_iff hnd).mp h

theorem foldl_update_mem (dofs : List Nat) (x : List ℚ)
    (hnd : dofs.Nodup) (l : List Nat) :
    ∀ (d : Nat → ℚ) (i : Nat), l.Nodup → (∀ j ∈ l, j < dofs.length) →
      i ∈ l →
      (l.foldl
        (fun d i => fun id => if id = dofs.getD i 0 then d id - x.getD i 0
                              else d id) d) (dofs.getD i 0)
        = d (dofs.getD i 0) - x.getD i 0 := by
  induction l with
  | nil => intro d i _ _ hmem; cases hmem
  | cons j t ih =>
      intro d i hnl hbound hmem
      rw [List.foldl_cons]
      by_cases heq : i = j
      · subst heq
        rw [foldl_update_not_mem]
        · exact if_pos rfl
        · intro k hk he
          have hki : k ≠ i :=
            fun heqk => (List.nodup_cons.mp hnl).1 (heqk ▸ hk)
          exact hki (getD_inj hnd (hbound k (List.mem_cons_of_mem i hk))
            (hbound i (List.mem_cons_self i t)) he)
      · have hmem' : i ∈ t := by
          rcases List.mem_cons.mp hmem with h | h
          · exact absurd h heq
          · exact h
        rw [ih _ i (List.nodup_cons.mp hnl).2
          (fun k hk => hbound k (List.mem_cons_of_mem j hk)) hmem']
        rw [if_neg (fun he => heq (getD_inj hnd (hbound i hmem)
          (hbound j (List.mem_cons_self j t)) he))]

theorem updateDeltas_getD (dofs : List Nat) (F : Nat) (delta : Nat → ℚ)
    (x : List ℚ) (hnd : dofs.Nodup) (hF : F ≤ dofs.length) (i : Nat)
    (hi : i < F) :
    updateDeltas dofs F delta x (dofs.getD i 0)
      = delta (dofs.getD i 0) - x.getD i 0 := by
  exact foldl_update_mem dofs x hnd (List.range F) delta i
    (List.nodup_range F)
    (fun j hj => lt_of_lt_of_le (List.mem_range.mp hj) hF)
    (List.mem_range.mpr hi)

/-- Soundness of the squared-norm encoding: `normLtB v t` holds exactly
when the real 2-norm `√(Σ vᵢ²)` is strictly below `t`. -/
theorem normLtB_iff_sqrt (v : List ℚ) (t : ℚ) :
    normLtB v t = true ↔
      Real.sqrt (((v.map (fun a => a * a)).sum : ℚ) : ℝ) < (t : ℝ) := by
  rw [normLtB, decide_eq_true_iff]
  set S : ℚ := (v.map (fun a => a * a)).sum with hSdef
  constructor
  · rintro ⟨ht, hlt⟩
    have ht' : (0 : ℝ) < (t : ℝ) := by exact_mod_cast ht
    refine (Real.sqrt_lt' ht').mpr ?_
    have h1 : (S : ℝ) < ((t * t : ℚ) : ℝ) := by exact_mod_cast hlt
    calc (S : ℝ) < ((t * t : ℚ) : ℝ) := h1
      _ = (t : ℝ) ^ 2 := by push_cast; ring
  · intro hsq
    have hnn : (0 : ℝ) ≤ Real.sqrt ((S : ℚ) : ℝ) := Real.sqrt_nonneg _
    have ht' : (0 : ℝ) < (t : ℝ) := lt_of_le_of_lt hnn hsq
    have ht : (0 : ℚ) < t := by exact_mod_cast ht'
    refine ⟨ht, ?_⟩
    have h1 := (Real.sqrt_lt' ht').mp hsq
    have h2 : (S : ℝ) < ((t * t : ℚ) : ℝ) := by
      calc (S : ℝ) < (t : ℝ) ^ 2 := h1
        _ = ((t * t : ℚ) : ℝ) := by push_cast; ring
    exact_mod_cast h2

/-! ## Claim theorems: the Newton loop -/

/-- C1 (amended): on exit with `ResidualBelowTol` (0), the exit residual
`rhs − target` is below `rtol`; on exit with `StepBelowTol` (1), the most
recent correction is below `xtol`; on exit with `IterationLimit` (2),
exactly `max maxiter 0` full iterations (assemble, residual check, solve,
update) were executed.  (The original claim stated `maxiter` in the third
clause; it fails for negative `maxiter`, where the limit is hit after `0`
iterations.) -/
theorem C1_stopping_correctness (sys : System) (solver : SolverFun)
    (lambda : ℚ) (maxiter : Int) (rtol xtol : ℚ) (tgt delta0 : Nat → ℚ) :
    ((solve sys solver lambda maxiter rtol xtol tgt delta0).reason = 0 →
      normLtB (solve sys solver lambda maxiter rtol xtol tgt delta0).residual
        rtol = true) ∧
    ((solve sys solver lambda maxiter rtol xtol tgt delta0).reason = 1 →
      normLtB (solve sys solver lambda maxiter rtol xtol tgt delta0).x
        xtol = true) ∧
    ((solve sys solver lambda maxiter rtol xtol tgt delta0).reason = 2 →
      ((solve sys solver lambda maxiter rtol xtol tgt delta0).fullIters : Int)
        = max maxiter 0) := by
  obtain ⟨h0, h1, h2⟩ := solveLoop_spec sys solver rtol xtol
    (if lambda = 1 then
      (List.range sys.nbFreeDofs).map (fun i => tgt (sys.dofs.getD i 0))
     else ((List.range sys.nbFreeDofs).map
       (fun i => tgt (sys.dofs.getD i 0))).map (fun t => lambda * t))
    maxiter.toNat 0 0 0 delta0 (List.replicate sys.nbFreeDofs 0)
    (List.replicate sys.nbFreeDofs 0)
  simp only [solve]
  refine ⟨h0, fun h => (h1 h).1, fun h => ?_⟩
  rw [h2 h, Nat.zero_add]
  exact Int.toNat_eq_max maxiter

/-- Counterexample to C1 as stated: with `maxiter = -1` the solver exits
with `IterationLimit` after `0` full iterations, not after
`maxiter = -1` iterations. -/
theorem C1_counterexample :
    outNeg.reason = 2 ∧ ((outNeg.fullIters : Int) ≠ -1) :=
  ⟨by decide, by decide⟩

/-- C9: with `maxiter ≤ 0` the iteration-limit check fires before any
assembly: the stopping reason is `2` and no element compute, no solver
call and no delta update happen. -/
theorem C9_maxiter_nonpos (sys : System) (solver : SolverFun)
    (lambda : ℚ) (maxiter : Int) (rtol xtol : ℚ) (tgt delta0 : Nat → ℚ)
    (h : maxiter ≤ 0) :
    (solve sys solver lambda maxiter rtol xtol tgt delta0).reason = 2 ∧
    (solve sys solver lambda maxiter rtol xtol tgt delta0).assembleCalls
      = 0 ∧
    (solve sys solver lambda maxiter rtol xtol tgt delta0).solverCalls
      = 0 ∧
    (solve sys solver lambda maxiter rtol xtol tgt delta0).delta = delta0 ∧
    (solve sys solver lambda maxiter rtol xtol tgt delta0).fullIters = 0 := by
  have hz : maxiter.toNat = 0 := Int.toNat_of_nonpos h
  refine ⟨?_, ?_, ?_, ?_, ?_⟩ <;>
    simp [solve, hz, solveLoop]

/-- Witness for C9: `maxiter = 0` on the one-element system performs no
assembly. -/
theorem C9_witness :
    (0 : Int) ≤ 0 ∧
    (solve sys1 solverLDLT1 1 0 (1/10000000) (1/10000000)
      (fun _ => 0) (fun _ => 0)).assembleCalls = 0 :=
  ⟨by decide,
   (C9_maxiter_nonpos sys1 solverLDLT1 1 0 (1/10000000) (1/10000000)
     (fun _ => 0) (fun _ => 0) (by decide)).2.1⟩

/-- C10: on exit with `StepBelowTol` (1), the final correction — the one
below `xtol` — has already been subtracted from every free DoF's delta:
the update step precedes the step-norm check. -/
theorem C10_update_precedes_check (elements : List Element)
    (fixed : Nat → Bool) (ls : String) (solver : SolverFun) (lambda : ℚ)
    (maxiter : Int) (rtol xtol : ℚ) (tgt delta0 : Nat → ℚ) (i : Nat)
    (hreason : (solve (buildSystem elements fixed ls) solver lambda maxiter
      rtol xtol tgt delta0).reason = 1)
    (hi : i < (buildSystem elements fixed ls).nbFreeDofs) :
    normLtB (solve (buildSystem elements fixed ls) solver lambda maxiter
      rtol xtol tgt delta0).x xtol = true ∧
    (solve (buildSystem elements fixed ls) solver lambda maxiter rtol xtol
      tgt delta0).delta ((buildSystem elements fixed ls).dofs.getD i 0)
      = (solve (buildSystem elements fixed ls) solver lambda maxiter rtol
          xtol tgt delta0).preDelta
          ((buildSystem elements fixed ls).dofs.getD i 0)
        - (solve (buildSystem elements fixed ls) solver lambda maxiter rtol
            xtol tgt delta0).x.getD i 0 := by
  obtain ⟨-, h1, -⟩ := solveLoop_spec (buildSystem elements fixed ls)
    solver rtol xtol
    (if lambda = 1 then
      (List.range (buildSystem elements fixed ls).nbFreeDofs).map
        (fun j => tgt ((buildSystem elements fixed ls).dofs.getD j 0))
     else ((List.range (buildSystem elements fixed ls).nbFreeDofs).map
       (fun j => tgt ((buildSystem elements fixed ls).dofs.getD j 0))).map
       (fun t => lambda * t))
    maxiter.toNat 0 0 0 delta0
    (List.replicate (buildSystem elements fixed ls).nbFreeDofs 0)
    (List.replicate (buildSystem elements fixed ls).nbFreeDofs 0)
  obtain ⟨hx, hdel⟩ := h1 hreason
  simp only [solve]
  refine ⟨hx, ?_⟩
  rw [hdel]
  exact updateDeltas_getD _ _ _ _
    (buildSystem_dofs_nodup elements fixed ls)
    (buildSystem_free_le_length elements fixed ls) i hi

/-- C7: construction from an empty element list succeeds with `F = 0`,
and any system with `F = 0` solved with `maxiter ≥ 1` and `rtol > 0`
exits at iteration `0` with `ResidualBelowTol`, because the length-0
residual has norm `0`. -/
theorem C7_empty_system :
    (∀ (fixed : Nat → Bool) (ls : String),
      (buildSystem [] fixed ls).nbFreeDofs = 0) ∧
    (∀ (sys : System) (solver : SolverFun) (lambda : ℚ) (maxiter : Int)
        (rtol xtol : ℚ) (tgt delta0 : Nat → ℚ),
      sys.nbFreeDofs = 0 → 1 ≤ maxiter → 0 < rtol →
      (solve sys solver lambda maxiter rtol xtol tgt delta0).reason = 0 ∧
      (solve sys solver lambda maxiter rtol xtol tgt delta0).iterations
        = 0) := by
  constructor
  · intro fixed ls; rfl
  · intro sys solver lambda maxiter rtol xtol tgt delta0 hF hm hr
    obtain ⟨k, hk⟩ : ∃ k, maxiter.toNat = k + 1 := ⟨maxiter.toNat - 1, by omega⟩
    have hres : ∀ (iter : Nat) (delta : Nat → ℚ) (target : List ℚ),
        normLtB (residualAt sys target iter delta) rtol = true := by
      intro iter delta target
      have hnil : residualAt sys target iter delta = [] := by
        simp [residualAt, rhsArr, hF]
      rw [hnil]
      simp only [normLtB, List.map_nil, List.sum_nil]
      exact decide_eq_true ⟨hr, mul_pos hr hr⟩
    constructor <;>
      simp [solve, hk, solveLoop, hres]

section

attribute [local semireducible] Rat.add Rat.mul Rat.inv Rat.sub

set_option maxRecDepth 1000000

/-- Witness for C7: the empty system exits at iteration `0` with
reason `0` under the default options. -/
theorem C7_witness :
    sys0.nbFreeDofs = 0 ∧ (1 : Int) ≤ 100 ∧ (0 : ℚ) < 1/10000000 ∧
    (solve sys0 solverLDLT1 1 100 (1/10000000) (1/10000000)
      (fun _ => 0) (fun _ => 0)).reason = 0 :=
  ⟨rfl, by decide, by decide,
   (C7_empty_system.2 sys0 solverLDLT1 1 100 (1/10000000) (1/10000000)
     (fun _ => 0) (fun _ => 0) rfl (by decide) (by decide)).1⟩

/-- Witness for C1: the linear one-DoF run exits with reason `0`, and by
the theorem its exit residual is below `rtol`. -/
theorem C1_witness :
    out2.reason = 0 ∧ normLtB out2.residual (1/10000000) = true :=
  ⟨by decide,
   (C1_stopping_correctness sys2 solverLDLT1 1 100 (1/10000000)
     (1/10000000) (fun _ => 0) (fun _ => 0)).1 (by decide)⟩

/-- Witness for C10: a run that exits with `StepBelowTol` in iteration
`0` has the (zero) correction already applied to the free DoF. -/
theorem C10_witness :
    outStep.reason = 1 ∧ (0 : Nat) < sys1.nbFreeDofs ∧
    outStep.delta (sys1.dofs.getD 0 0)
      = outStep.preDelta (sys1.dofs.getD 0 0) - outStep.x.getD 0 0 :=
  ⟨by decide, by decide,
   (C10_update_precedes_check [constElem] (fun _ => false) "ldlt"
     (fun _ _ => [0]) 1 100 (1/10000000) (1/10000000) (fun _ => 5)
     (fun _ => 0) 0 (by decide) (by decide)).2⟩

/-- Counterexample to C3 as stated: with the element returning the
constant `local_rhs = [1]` (independent of the DoF state), the residual
never falls below `rtol`, so the run exits with `IterationLimit` (2) and
the final delta is `-50`, not reason `0` with delta `-0.5`. -/
theorem C3_counterexample :
    out1.reason = 2 ∧ out1.delta 0 = -50 ∧
    ¬(out1.reason = 0 ∧ out1.delta 0 = -(1/2)) := by
  refine ⟨by decide, by decide, ?_⟩
  intro h
  exact absurd h.1 (by decide)

/-- C3 (amended): with the element actually linear —
`local_rhs = [1 + 2·delta]`, `local_lhs = [[2]]` — `solve` with the LDLT
solver and default options terminates with stopping reason `0` at
iteration `1` and the DoF's final delta is `-0.5`. -/
theorem C3_amended_linear :
    out2.reason = 0 ∧ out2.iterations = 1 ∧ out2.delta 0 = -(1/2) := by
  refine ⟨by decide, by decide, by decide⟩

end

/-! ## Claim theorems: solver selection -/

/-- C4: any `linear_solver` name other than `"ldlt"` and `"lsmr"` leaves
the system without a solver (`m_solver` null): the embedded selection
returns `none`.  The C++ constructor then prints `"error"` (the branch is
marked `FIXME: throw exception`) and continues into
`m_solver->analyze_pattern`, a null-pointer dereference, instead of
raising a configuration error. -/
theorem C4_unknown_solver (elements : List Element) (fixed : Nat → Bool)
    (ls : String) (h1 : ls ≠ "ldlt") (h2 : ls ≠ "lsmr") :
    (buildSystem elements fixed ls).solverKind = none := by
  show selectSolver ls = none
  simp [selectSolver, h1, h2]

/-- Witness for C4: the solver name `"qr"`. -/
theorem C4_witness :
    ("qr" : String) ≠ "ldlt" ∧ ("qr" : String) ≠ "lsmr" ∧
    (buildSystem [] (fun _ => false) "qr").solverKind = none :=
  ⟨by decide, by decide,
   C4_unknown_solver [] (fun _ => false) "qr" (by decide) (by decide)⟩

/-! ## Lemmas: the sparsity pattern -/

theorem mem_setInsert {a v : Nat} {l : List Nat} :
    a ∈ setInsert v l ↔ a = v ∨ a ∈ l := by
  induction l with
  | nil => simp [setInsert]
  | cons x xs ih =>
      simp only [setInsert]
      by_cases h1 : v < x
      · simp [if_pos h1]
      · by_cases h2 : v = x
        · subst h2
          simp [if_neg h1]
        · simp only [if_neg h1, if_neg h2, List.mem_cons, ih]
          tauto

theorem getD_set_self {α : Type} {p : List α} {i : Nat} {v d : α}
    (h : i < p.length) : (p.set i v).getD i d = v := by
  rw [List.getD_eq_getElem?_getD, List.getElem?_set_self h]
  rfl

theorem getD_set_other {α : Type} {p : List α} {i j : Nat} {v d : α}
    (h : i ≠ j) : (p.set i v).getD j d = p.getD j d := by
  rw [List.getD_eq_getElem?_getD, List.getElem?_set_ne h,
    ← List.getD_eq_getElem?_getD]

theorem patternInsert_length (p : List (List Nat)) (col row : Nat) :
    (patternInsert p col row).length = p.length :=
  List.length_set p col _

theorem mem_patternInsert {p : List (List Nat)} {col row col' a : Nat}
    (hcol : col < p.length) :
    a ∈ (patternInsert p col row).getD col' [] ↔
      (col' = col ∧ a = row) ∨ a ∈ p.getD col' [] := by
  by_cases h : col' = col
  · subst h
    rw [patternInsert, getD_set_self hcol, mem_setInsert]
    tauto
  · rw [patternInsert, getD_set_other (fun he => h he.symm)]
    tauto

theorem patternCols_length (F : Nat) (ri : Index) (cols : List Index)
    (p : List (List Nat)) :
    (patternCols F ri cols p).length = p.length := by
  induction cols generalizing p with
  | nil => rfl
  | cons ci t ih =>
      simp only [patternCols, List.foldl_cons]
      by_cases h : ci.global < F
      · simp only [if_pos h]
        rw [show (List.foldl _ (patternInsert p ci.global ri.global) t)
            = patternCols F ri t (patternInsert p ci.global ri.global)
          from rfl, ih, patternInsert_length]
      · simp only [if_neg h]
        exact ih p

theorem mem_patternCols {F : Nat} {ri : Index} {cols : List Index}
    {p : List (List Nat)} {col a : Nat} (hlen : p.length = F) :
    a ∈ (patternCols F ri cols p).getD col [] ↔
      a ∈ p.getD col [] ∨
      ∃ ci ∈ cols, ci.global < F ∧ ci.global = col ∧ a = ri.global := by
  induction cols generalizing p with
  | nil => simp [patternCols]
  | cons ci t ih =>
      have hstep : patternCols F ri (ci :: t) p
          = patternCols F ri t
            (if ci.global < F then patternInsert p ci.global ri.global
             else p) := rfl
      rw [hstep]
      by_cases h : ci.global < F
      · rw [if_pos h]
        rw [ih (by rw [patternInsert_length]; exact hlen)]
        rw [mem_patternInsert (by rw [hlen]; exact h)]
        constructor
        · rintro ((⟨hc, ha⟩ | hp) | ⟨ci', hci', hlt, hceq, ha⟩)
          · exact Or.inr ⟨ci, List.mem_cons_self ci t, h, hc.symm, ha⟩
          · exact Or.inl hp
          · exact Or.inr ⟨ci', List.mem_cons_of_mem ci hci', hlt, hceq, ha⟩
        · rintro (hp | ⟨ci', hci', hlt, hceq, ha⟩)
          · exact Or.inl (Or.inr hp)
          · rcases List.mem_cons.mp hci' with heq | hmem
            · subst heq
              exact Or.inl (Or.inl ⟨hceq.symm, ha⟩)
            · exact Or.inr ⟨ci', hmem, hlt, hceq, ha⟩
      · rw [if_neg h]
        rw [ih hlen]
        constructor
        · rintro (hp | ⟨ci', hci', hlt, hceq, ha⟩)
          · exact Or.inl hp
          · exact Or.inr ⟨ci', List.mem_cons_of_mem ci hci', hlt, hceq, ha⟩
        · rintro (hp | ⟨ci', hci', hlt, hceq, ha⟩)
          · exact Or.inl hp
          · rcases List.mem_cons.mp hci' with heq | hmem
            · subst heq; exact absurd hlt h
            · exact Or.inr ⟨ci', hmem, hlt, hceq, ha⟩

theorem patternElem_length (F : Nat) (T : List Index)
    (p : List (List Nat)) :
    (patternElem F T p).length = p.length := by
  induction T generalizing p with
  | nil => rfl
  | cons ri rest ih =>
      simp only [patternElem]
      by_cases h : ri.global < F
      · simp only [if_pos h]
        rw [ih, patternCols_length]
      · simp only [if_neg h]
        exact ih p

theorem mem_patternElem {F : Nat} {T : List Index} {p : List (List Nat)}
    {col a : Nat} (hlen : p.length = F) :
    a ∈ (patternElem F T p).getD col [] ↔
      a ∈ p.getD col [] ∨
      ∃ pr ∈ tailPairs T, pr.1.global < F ∧ pr.2.global < F ∧
        a = pr.1.global ∧ pr.2.global = col := by
  induction T generalizing p with
  | nil => simp [patternElem, tailPairs]
  | cons ri rest ih =>
      simp only [patternElem]
      by_cases h : ri.global < F
      · rw [if_pos h]
        rw [ih (by rw [patternCols_length]; exact hlen)]
        rw [mem_patternCols hlen]
        simp only [tailPairs, List.mem_append, List.mem_map]
        constructor
        · rintro ((hp | ⟨ci, hci, hlt, hceq, ha⟩) | ⟨pr, hpr, h1, h2, h3, h4⟩)
          · exact Or.inl hp
          · exact Or.inr ⟨(ri, ci), Or.inl ⟨ci, hci, rfl⟩, h, hlt, ha, hceq⟩
          · exact Or.inr ⟨pr, Or.inr hpr, h1, h2, h3, h4⟩
        · rintro (hp | ⟨pr, hpr | hpr, h1, h2, h3, h4⟩)
          · exact Or.inl (Or.inl hp)
          · obtain ⟨ci, hci, heq⟩ := hpr
            subst heq
            exact Or.inl (Or.inr ⟨ci, hci, h2, h4, h3⟩)
          · exact Or.inr ⟨pr, hpr, h1, h2, h3, h4⟩
      · rw [if_neg h]
        rw [ih hlen]
        simp only [tailPairs, List.mem_append, List.mem_map]
        constructor
        · rintro (hp | ⟨pr, hpr, h1, h2, h3, h4⟩)
          · exact Or.inl hp
          · exact Or.inr ⟨pr, Or.inr hpr, h1, h2, h3, h4⟩
        · rintro (hp | ⟨pr, hpr | hpr, h1, h2, h3, h4⟩)
          · exact Or.inl hp
          · obtain ⟨ci, hci, heq⟩ := hpr
            subst heq
            exact absurd h1 h
          · exact Or.inr ⟨pr, hpr, h1, h2, h3, h4⟩

theorem analyzePattern_length (F : Nat) (tables : List (List Index)) :
    (analyzePattern F tables).length = F := by
  unfold analyzePattern
  have h : ∀ (ts : List (List Index)) (p : List (List Nat)),
      (ts.foldl (fun p T => patternElem F T p) p).length = p.length := by
    intro ts
    induction ts with
    | nil => intro p; rfl
    | cons T rest ih =>
        intro p
        rw [List.foldl_cons, ih, patternElem_length]
  rw [h, List.length_replicate]

theorem mem_analyzePattern {F : Nat} {tables : List (List Index)}
    {col a : Nat} :
    a ∈ (analyzePattern F tables).getD col [] ↔
      ∃ T ∈ tables, ∃ pr ∈ tailPairs T, pr.1.global < F ∧
        pr.2.global < F ∧ a = pr.1.global ∧ pr.2.global = col := by
  have hbase : ∀ c, (List.replicate F ([] : List Nat)).getD c [] = [] := by
    intro c
    rw [List.getD_eq_getElem?_getD]
    exact List.getElem?_getD_replicate_default_eq ([] : List Nat) F c
  have h : ∀ (ts : List (List Index)) (p : List (List Nat)),
      p.length = F →
      (a ∈ (ts.foldl (fun p T => patternElem F T p) p).getD col [] ↔
        a ∈ p.getD col [] ∨
        ∃ T ∈ ts, ∃ pr ∈ tailPairs T, pr.1.global < F ∧
          pr.2.global < F ∧ a = pr.1.global ∧ pr.2.global = col) := by
    intro ts
    induction ts with
    | nil => intro p _; simp
    | cons T rest ih =>
        intro p hlen
        rw [List.foldl_cons,
          ih _ (by rw [patternElem_length]; exact hlen),
          mem_patternElem hlen]
        simp only [List.mem_cons]
        constructor
        · rintro ((hp | ⟨pr, hpr, hc⟩) | ⟨T', hT', hrest⟩)
          · exact Or.inl hp
          · exact Or.inr ⟨T, Or.inl rfl, pr, hpr, hc⟩
          · exact Or.inr ⟨T', Or.inr hT', hrest⟩
        · rintro (hp | ⟨T', hT' | hT', hrest⟩)
          · exact Or.inl (Or.inl hp)
          · subst hT'
            exact Or.inl (Or.inr hrest)
          · exact Or.inr ⟨T', hT', hrest⟩
  rw [analyzePattern, h _ _ (List.length_replicate F []), hbase]
  simp

theorem mem_iff_getD {α : Type} [Inhabited α] {l : List α} {b : α} :
    b ∈ l ↔ ∃ c, c < l.length ∧ l.getD c default = b := by
  constructor
  · intro h
    obtain ⟨n, hn, he⟩ := List.getElem_of_mem h
    exact ⟨n, hn, by rw [getD_lt_eq default hn]; exact he⟩
  · rintro ⟨c, hc, he⟩
    rw [getD_lt_eq default hc] at he
    exact he ▸ List.getElem_mem hc

theorem mem_tailPairs {T : List Index} {a b : Index} :
    (a, b) ∈ tailPairs T ↔
      ∃ r c, r ≤ c ∧ c < T.length ∧ T.getD r default = a ∧
        T.getD c default = b := by
  induction T with
  | nil => simp [tailPairs]
  | cons x xs ih =>
      simp only [tailPairs, List.mem_append, List.mem_map]
      constructor
      · rintro (⟨y, hy, heq⟩ | hrest)
        · cases heq
          obtain ⟨c, hc, he⟩ := mem_iff_getD.mp hy
          exact ⟨0, c, Nat.zero_le c, hc, rfl, he⟩
        · obtain ⟨r, c, hrc, hc, ha, hb⟩ := ih.mp hrest
          refine ⟨r + 1, c + 1, Nat.succ_le_succ hrc, ?_, ?_, ?_⟩
          · simpa using Nat.succ_lt_succ hc
          · simpa using ha
          · simpa using hb
      · rintro ⟨r, c, hrc, hc, ha, hb⟩
        cases r with
        | zero =>
            refine Or.inl ⟨b, ?_, ?_⟩
            · exact mem_iff_getD.mpr ⟨c, hc, hb⟩
            · simp only [List.getD_cons_zero] at ha
              rw [ha]
        | succ r' =>
            cases c with
            | zero => omega
            | succ c' =>
                refine Or.inr (ih.mpr ⟨r', c', by omega, ?_, ?_, ?_⟩)
                · simpa using hc
                · simpa using ha
                · simpa using hb

theorem mem_insertIndex {x y : Index} {l : List Index} :
    y ∈ insertIndex x l ↔ y = x ∨ y ∈ l := by
  induction l with
  | nil => simp [insertIndex]
  | cons z zs ih =>
      simp only [insertIndex]
      by_cases h : x.global ≤ z.global
      · simp only [if_pos h, List.mem_cons]
      · simp only [if_neg h, List.mem_cons, ih]
        tauto

theorem insertIndex_pairwise {x : Index} {l : List Index}
    (h : l.Pairwise (fun a b => a.global ≤ b.global)) :
    (insertIndex x l).Pairwise (fun a b => a.global ≤ b.global) := by
  induction l with
  | nil => simp [insertIndex]
  | cons y ys ih =>
      rw [List.pairwise_cons] at h
      obtain ⟨hy, hys⟩ := h
      simp only [insertIndex]
      by_cases hxy : x.global ≤ y.global
      · rw [if_pos hxy, List.pairwise_cons]
        refine ⟨?_, List.pairwise_cons.mpr ⟨hy, hys⟩⟩
        intro b hb
        rcases List.mem_cons.mp hb with rfl | hb'
        · exact hxy
        · exact le_trans hxy (hy b hb')
      · rw [if_neg hxy, List.pairwise_cons]
        refine ⟨?_, ih hys⟩
        intro b hb
        rcases mem_insertIndex.mp hb with rfl | hb'
        · omega
        · exact hy b hb'

theorem sortIndices_pairwise (l : List Index) :
    (sortIndices l).Pairwise (fun a b => a.global ≤ b.global) := by
  induction l with
  | nil => exact List.Pairwise.nil
  | cons x xs ih => exact insertIndex_pairwise ih

theorem pairwise_getD_le {T : List Index}
    (h : T.Pairwise (fun a b => a.global ≤ b.global)) {r c : Nat}
    (hrc : r ≤ c) (hc : c < T.length) :
    (T.getD r default).global ≤ (T.getD c default).global := by
  rcases Nat.lt_or_ge c r with hlt | hge
  · omega
  · rcases Nat.eq_or_lt_of_le hrc with heq | hlt
    · subst heq; exact Nat.le_refl _
    · have hr : r < T.length := lt_trans hlt hc
      rw [getD_lt_eq default hr, getD_lt_eq default hc]
      exact List.pairwise_iff_getElem.mp h r c hr hc hlt

theorem buildSystem_indexTable_sorted (elements : List Element)
    (fixed : Nat → Bool) (ls : String) :
    ∀ T ∈ (buildSystem elements fixed ls).indexTable,
      T.Pairwise (fun a b => a.global ≤ b.global) := by
  intro T hT
  simp only [buildSystem] at hT
  rw [List.mem_map] at hT
  obtain ⟨ds, -, heq⟩ := hT
  exact heq ▸ sortIndices_pairwise _

/-- C2: the structural nonzeros of the free-block LHS are exactly the
pairs `(global(r), global(c))` arising from element-local positions
`r ≤ c` of some (sorted) index table with both globals free, and no
structural entry lies strictly below the diagonal. -/
theorem C2_pattern_exact (elements : List Element) (fixed : Nat → Bool)
    (ls : String) (row col : Nat) :
    (structuralNZ (buildSystem elements fixed ls) row col ↔
      ∃ T ∈ (buildSystem elements fixed ls).indexTable,
        Justifies (buildSystem elements fixed ls).nbFreeDofs T row col) ∧
    (col < row → ¬ structuralNZ (buildSystem elements fixed ls) row col) := by
  have hlen : (buildSystem elements fixed ls).pattern.length
      = (buildSystem elements fixed ls).nbFreeDofs := by
    show (analyzePattern (buildSystem elements fixed ls).nbFreeDofs
      (buildSystem elements fixed ls).indexTable).length = _
    exact analyzePattern_length _ _
  have hchar : structuralNZ (buildSystem elements fixed ls) row col ↔
      ∃ T ∈ (buildSystem elements fixed ls).indexTable,
        Justifies (buildSystem elements fixed ls).nbFreeDofs T row col := by
    constructor
    · rintro ⟨-, hmem⟩
      have hmem' : row ∈ (analyzePattern
          (buildSystem elements fixed ls).nbFreeDofs
          (buildSystem elements fixed ls).indexTable).getD col [] := hmem
      obtain ⟨T, hT, pr, hpr, h1, h2, h3, h4⟩ :=
        mem_analyzePattern.mp hmem'
      have hpr' : (pr.1, pr.2) ∈ tailPairs T := by
        rw [Prod.mk.eta]; exact hpr
      obtain ⟨r, c, hrc, hc, ha, hb⟩ := mem_tailPairs.mp hpr'
      refine ⟨T, hT, r, c, hrc, hc, ?_, ?_, h3 ▸ h1, h4 ▸ h2⟩
      · rw [ha, ← h3]
      · rw [hb, h4]
    · rintro ⟨T, hT, r, c, hrc, hc, hrow, hcol, hrF, hcF⟩
      have hpair : (T.getD r default, T.getD c default) ∈ tailPairs T :=
        mem_tailPairs.mpr ⟨r, c, hrc, hc, rfl, rfl⟩
      refine ⟨by rw [hlen]; exact hcF, ?_⟩
      show row ∈ (analyzePattern
        (buildSystem elements fixed ls).nbFreeDofs
        (buildSystem elements fixed ls).indexTable).getD col []
      exact mem_analyzePattern.mpr
        ⟨T, hT, (T.getD r default, T.getD c default), hpair,
         hrow ▸ hrF, hcol ▸ hcF, hrow.symm, hcol⟩
  refine ⟨hchar, fun hlt hnz => ?_⟩
  obtain ⟨T, hT, r, c, hrc, hc, hrow, hcol, -, -⟩ := hchar.mp hnz
  have hsort := buildSystem_indexTable_sorted elements fixed ls T hT
  have := pairwise_getD_le hsort hrc hc
  omega

/-- Witness for C2: in the two-element shared-DoF system, `(0, 1)` is a
structural nonzero (justified by element `eA`), and the subdiagonal pair
`(1, 0)` is not structural. -/
theorem C2_witness :
    structuralNZ sysAB 0 1 ∧ ¬ structuralNZ sysAB 1 0 :=
  ⟨(C2_pattern_exact [eA, eB] (fun _ => false) "ldlt" 0 1).1.mpr
    ⟨[⟨0, 0⟩, ⟨1, 1⟩], by decide,
     0, 1, by decide, by decide, by decide, by decide, by decide, by decide⟩,
   (C2_pattern_exact [eA, eB] (fun _ => false) "ldlt" 1 0).2 (by decide)⟩

end EQlib
